import Mathlib

/-!
# Mini-Shell (`miniShell.c`): a shallow embedding and its verified properties

The C program is a small interactive shell: `read_command_line` reads one line
from standard input, `split_command_line` tokenizes it with `strtok`,
`shell_execute` dispatches to one of three builtins (`cd`, `exit`, `help`) or
to `start_process`, and `shell_loop` repeats this while the status is `1`.

Modelling conventions

* A C `char` is an `Int`; the platform is one where `char` is signed and
  8 bits wide (the x86 / x86-64 ABI), so storing the `int` that `getchar`
  returns into `char c` wraps it into `-128 .. 127`.
* A C string is the `List CChar` of its characters, without the terminating
  NUL.  A `NULL`-terminated `char **` vector is the `List` of its strings.
* A heap block is the list of the bytes found at its address; offsets past
  the end of the list read as `0`.  The initial bytes of a block returned by
  `malloc` are indeterminate, so they are a parameter (`heap`).
* Every store through an index is recorded, with the capacity of the block at
  that moment, in a `writes` trace, so that bounds can be stated.  A store at
  an index that is not below the capacity is outside the block: from there on
  the behaviour of the C program is undefined.  The traces of the two loops go
  on past such a store (so that the stores can be counted), but the value the
  caller receives (`ReadResult.line`, `SplitResult.argv`) is defined only when
  every store was inside the block.  `realloc` is called only after a store
  outside the block, so no defined value depends on how it is modelled.
* The operating system is a parameter (`Env`): what `chdir`, `fork` and
  `waitpid` answer.  Observable actions are appended to `World.events`.
-/

namespace MiniShell

/-! ## C characters, strings and memory -/

/-- A value of the C type `char`. -/
abbrev CChar := Int

/-- The `EOF` constant of `<stdio.h>`. -/
def EOF : Int := -1

/-- Conversion of an `int` to `char` (signed, 8 bits, two's complement), as in
`c = getchar();` with `char c`. -/
def toChar (v : Int) : CChar := (v + 128) % 256 - 128

/-- The characters of a string literal as C characters. -/
def str (s : String) : List CChar := s.toList.map (fun c => Int.ofNat c.toNat)

/-- The bytes of an ASCII text, as they arrive on standard input. -/
def bytes (s : String) : List Nat := s.toList.map Char.toNat

/-- One call of `getchar()` on the rest of standard input: the next byte as an
`unsigned char` converted to `int`, or `EOF` at end of stream. -/
def getchar : List Nat → Int × List Nat
  | [] => (EOF, [])
  | b :: rest => (Int.ofNat (b % 256), rest)

/-- The bytes found at the address of a heap block. -/
abbrev Mem := List CChar

/-- The store `m[i] = v`; the offsets between the end of the list and `i`, which
read as `0`, are made explicit. -/
def poke (m : Mem) (i : Nat) (v : CChar) : Mem :=
  (m ++ List.replicate (i - m.length) 0).take i ++ v :: m.drop (i + 1)

/-- The C string that starts at the address of the block: its bytes up to the
first NUL. -/
def cstr (m : Mem) : List CChar := m.takeWhile (fun c => decide (c ≠ 0))

/-- The libc function `strcmp`, up to what its callers test: the result is `0`
exactly when the two strings are equal. -/
def strcmp (a b : List CChar) : Int := if a = b then 0 else 1

/-- One call of the libc function `strtok` on the string left to scan: skip the
leading delimiters; if nothing is left there is no token; otherwise the token
runs up to the next delimiter, which is overwritten with NUL, and scanning
resumes after it. Returns the token and the string left to scan. -/
def strtok (delim : List CChar) (s : List CChar) : Option (List CChar × List CChar) :=
  match s.dropWhile (fun c => decide (c ∈ delim)) with
  | [] => none
  | c :: cs =>
    some ((c :: cs).takeWhile (fun d => !decide (d ∈ delim)),
          ((c :: cs).dropWhile (fun d => !decide (d ∈ delim))).drop 1)

/-! ## `split_command_line` -/

/-- The capacity of the token array: `int no_of_tokens = 64;`. -/
def no_of_tokens : Nat := 64

/-- The trace of `split_command_line`: the tokens `strtok` produced, in the
order in which they were stored through `tokens[position]`, and the indices
stored to, in order, the store of the `NULL` sentinel last.  The array has
`no_of_tokens` slots; the trace also lists the stores that fall outside it. -/
structure SplitResult where
  tokens : List (List CChar)
  writes : List Nat
deriving DecidableEq, Repr

/-- The argument vector the caller of `split_command_line` receives.  It is
defined only when every store, the sentinel's included, went to one of the
`no_of_tokens` slots of the array; otherwise the function has stored outside
its allocation and nothing is defined. -/
def SplitResult.argv (r : SplitResult) : Option (List (List CChar)) :=
  if ∀ i ∈ r.writes, i < no_of_tokens then some r.tokens else none

/-- The loop `while (token != NULL)` of `split_command_line`, together with the
call of `strtok` that produces `token`.  The fuel bounds the number of calls of
`strtok`; `split_command_line` supplies more than can be used. -/
def split_loop (delim : List CChar) :
    Nat → List CChar → Nat → List (List CChar) → List Nat → SplitResult
  | 0, _, position, tokens, writes => ⟨tokens, writes ++ [position]⟩
  | fuel + 1, s, position, tokens, writes =>
    match strtok delim s with
    | none =>
      -- tokens[position] = NULL;
      ⟨tokens, writes ++ [position]⟩
    | some (token, rest) =>
      -- tokens[position] = token; position++; token = strtok(NULL, delim);
      split_loop delim fuel rest (position + 1) (tokens ++ [token]) (writes ++ [position])

/-- The function `split_command_line`: tokenize with the delimiter string `" "`. -/
def split_command_line (command : List CChar) : SplitResult :=
  split_loop (str " ") (command.length + 1) command 0 [] []

/-! ## `read_command_line` -/

/-- The trace of `read_command_line`: the bytes at the address `command` after
the stores, the final `position` and `buf_size`, the stores (index, capacity at
the time of the store), and the rest of standard input. -/
structure ReadResult where
  command : Mem
  position : Nat
  buf_size : Nat
  writes : List (Nat × Nat)
  stdin : List Nat
deriving DecidableEq, Repr

/-- The line the caller of `read_command_line` receives: the C string at
`command`.  It is defined only when every store was below the capacity at the
time (then `realloc` was never called and the block is still the one `malloc`
returned) and the NUL that ends the string lies inside the block. -/
def ReadResult.line (r : ReadResult) : Option (List CChar) :=
  if (∀ p ∈ r.writes, p.1 < p.2) ∧ (cstr r.command).length < r.buf_size then
    some (cstr r.command)
  else none

/-- The loop `while (c != EOF && c != '\n')` of `read_command_line`, each round
starting with the `getchar()` that produces `c`.  At end of stream `getchar`
returns `EOF`, which `char c` keeps as `-1`, and the loop ends. -/
def read_loop : List Nat → Mem → Nat → Nat → List (Nat × Nat) → ReadResult
  | [], command, position, buf_size, writes => ⟨command, position, buf_size, writes, []⟩
  | b :: rest, command, position, buf_size, writes =>
    let c := toChar (getchar (b :: rest)).1
    if c ≠ EOF ∧ c ≠ 10 then
      -- command[position] = c;
      -- if (position >= buf_size) { buf_size += 64; command = realloc(command, buf_size); }
      -- position++;
      read_loop rest (poke command position c) (position + 1)
        (if position ≥ buf_size then buf_size + 64 else buf_size)
        (writes ++ [(position, buf_size)])
    else ⟨command, position, buf_size, writes, rest⟩

/-- The function `read_command_line`; `heap` is the initial content of the
block that `malloc(1024)` returns.  No terminating NUL is stored.  The `realloc`
after a store at `position = buf_size` is traced as a larger `buf_size` over
the same bytes; `ReadResult.line` is undefined in that case. -/
def read_command_line (heap : Mem) (stdin : List Nat) : ReadResult :=
  read_loop stdin heap 0 1024 []

/-! ## The world and the operating system -/

/-- The state a child is reported in by `waitpid(pid, &status, WUNTRACED)`. -/
inductive WaitStatus
  | exited
  | signaled
  | stopped
deriving DecidableEq, Repr

/-- An observable action of the shell process. -/
inductive Event
  | stdout (text : String)
  | stderr (text : String)
  | perror (tag : String)
  | chdir (path : List CChar) (ok : Bool)
  | fork (pid : Int)
  | waitpid (st : WaitStatus)
deriving DecidableEq, Repr

/-- The state of the process that executes the shell code. -/
structure World where
  cwd : List CChar
  events : List Event
  stdin : List Nat
deriving DecidableEq, Repr

/-- The answers of the operating system during one iteration of the loop:
`heap` is the initial content of the block `malloc` hands to
`read_command_line`; `chdir cwd path` is the new working directory, or `none`
when `chdir` returns `-1`; `fork` is the value `fork()` returns in the process
that is followed; `waitpid` is the sequence of child states that successive
calls of `waitpid` report (after the last one, `waitpid` blocks for ever). -/
structure Env where
  heap : Mem
  chdir : List CChar → List CChar → Option (List CChar)
  fork : Int
  waitpid : List WaitStatus

/-- Append an action to the log. -/
def emit (w : World) (e : Event) : World := { w with events := w.events ++ [e] }

/-- The actions that write a line to the error stream. -/
def Event.onStderr : Event → Bool
  | .stderr _ => true
  | .perror _ => true
  | _ => false

/-- The lines written to the error stream so far. -/
def stderr_lines (w : World) : List Event := w.events.filter Event.onStderr

/-- The calls of `chdir` made so far. -/
def chdir_calls (w : World) : List Event :=
  w.events.filter (fun e => match e with | .chdir _ _ => true | _ => false)

/-! ## Builtins -/

/-- The builtin `shell_cd`. -/
def shell_cd (env : Env) (w : World) (args : List (List CChar)) : Int × World :=
  match args[1]? with
  | none => (1, emit w (.stderr "minsh: one argument required\n"))
  | some path =>
    match env.chdir w.cwd path with
    | none => (1, emit (emit w (.chdir path false)) (.perror "minsh"))
    | some dir => (1, { emit w (.chdir path true) with cwd := dir })

/-- The builtin `shell_exit`. -/
def shell_exit (_env : Env) (w : World) (_args : List (List CChar)) : Int × World :=
  (0, w)

/-- The builtin `shell_help`. -/
def shell_help (_env : Env) (w : World) (_args : List (List CChar)) : Int × World :=
  (1, emit w (.stdout "\nA mini implementation of the Unix Shell by Ashwitha Yadav T.\n\n"))

/-- The constant `BUILTIN_COMMANDS`. -/
def BUILTIN_COMMANDS : Nat := 3

/-- The table `builtin` of builtin command names. -/
def builtin : List (List CChar) := [str "cd", str "exit", str "help"]

/-- The table `builtin_function` of builtin handlers. -/
def builtin_function : List (Env → World → List (List CChar) → Int × World) :=
  [shell_cd, shell_exit, shell_help]

/-! ## `start_process` -/

/-- The loop `do { wpid = waitpid(pid, &status, WUNTRACED); }
while (!WIFEXITED(status) && !WIFSIGNALED(status));`.  The result is `none`
when `waitpid` blocks for ever. -/
def wait_loop : List WaitStatus → World → Option World
  | [], _ => none
  | st :: rest, w =>
    if st ≠ WaitStatus.exited ∧ st ≠ WaitStatus.signaled then
      wait_loop rest (emit w (.waitpid st))
    else some (emit w (.waitpid st))

/-- The function `start_process`, in the process in which `fork()` returned
`env.fork`.  The result is the value returned to the caller, or `none` when the
function never returns. -/
def start_process (env : Env) (w : World) (_args : List (List CChar)) :
    Option (Int × World) :=
  let pid := env.fork
  let w1 := emit w (.fork pid)
  if pid = 0 then
    some (1, emit w1 (.stdout "\nChild Process"))
  else if pid < 0 then
    some (1, emit w1 (.perror "minsh"))
  else
    match wait_loop env.waitpid (emit w1 (.stdout "\nParent Process!")) with
    | none => none
    | some w2 => some (1, w2)

/-! ## `shell_execute` and `shell_loop` -/

/-- The loop `for (i = 0; i < BUILTIN_COMMANDS; i++)` of `shell_execute` over
the rows of the two parallel tables, followed by `return start_process(args);`. -/
def scan_builtins (env : Env) (w : World) (args : List (List CChar)) (arg0 : List CChar) :
    List (List CChar × (Env → World → List (List CChar) → Int × World)) →
    Option (Int × World)
  | [] => start_process env w args
  | (name, handler) :: rows =>
    if strcmp arg0 name = 0 then some (handler env w args)
    else scan_builtins env w args arg0 rows

/-- The function `shell_execute`. -/
def shell_execute (env : Env) (w : World) (args : List (List CChar)) : Option (Int × World) :=
  match args with
  | [] => some (1, w)
  | arg0 :: _ =>
    scan_builtins env w args arg0 ((builtin.zip builtin_function).take BUILTIN_COMMANDS)

/-- One iteration of the body of `while (status == 1)` in `shell_loop`: the new
status and world, or `none` when the iteration never ends or its behaviour is
undefined (a store outside a block in the reader or in the tokenizer). -/
def shell_loop_step (env : Env) (w : World) : Option (Int × World) :=
  let w1 := emit w (.stdout "minsh> ")
  let r := read_command_line env.heap w1.stdin
  let w2 : World := { w1 with stdin := r.stdin }
  match r.line with
  | none => none
  | some command_line =>
    if strcmp command_line (str "") = 0 then
      -- continue;
      some (1, w2)
    else
      match (split_command_line command_line).argv with
      | none => none
      | some arguments => shell_execute env w2 arguments

/-- The loop `while (status == 1)` of `shell_loop`, run for at most as many
iterations as there are environments in the list. -/
def shell_loop_while : List Env → Int → World → Option (Int × World)
  | [], status, w => some (status, w)
  | env :: envs, status, w =>
    if status = 1 then
      match shell_loop_step env w with
      | none => none
      | some (status', w') => shell_loop_while envs status' w'
    else some (status, w)

/-- The function `shell_loop`: `int status = 1;` followed by the loop.  The
result is the status and the world after at most `envs.length` iterations; the
loop has ended (state STOPPED) exactly when that status is not `1`. -/
def shell_loop (envs : List Env) (w : World) : Option (Int × World) :=
  shell_loop_while envs 1 w

/-! ## Definitions that follow the specification's words -/

/-- The maximal runs of characters other than `sep` in a line: the pieces
between separators, the empty ones dropped. -/
def maximal_runs (sep : CChar) (line : List CChar) : List (List CChar) :=
  (line.splitOn sep).filter (fun piece => !piece.isEmpty)

/-- Remove duplicate spaces: a space directly followed by a space is dropped. -/
def remove_duplicate_spaces : List CChar → List CChar
  | [] => []
  | [c] => [c]
  | c :: d :: rest =>
    if c = 32 ∧ d = 32 then remove_duplicate_spaces (d :: rest)
    else c :: remove_duplicate_spaces (d :: rest)

/-- Remove the leading spaces. -/
def remove_leading_spaces (line : List CChar) : List CChar :=
  line.dropWhile (fun c => decide (c = 32))

/-- Remove the trailing spaces. -/
def remove_trailing_spaces (line : List CChar) : List CChar :=
  line.rdropWhile (fun c => decide (c = 32))

/-- The line with leading spaces, trailing spaces and duplicate spaces removed. -/
def normalize_spaces (line : List CChar) : List CChar :=
  remove_trailing_spaces (remove_leading_spaces (remove_duplicate_spaces line))

/-- Join tokens with single spaces. -/
def join_tokens (tokens : List (List CChar)) : List CChar :=
  List.intercalate [32] tokens


/-! ## Auxiliary scanner used in the proofs about the tokenizer -/

/-- One right-to-left pass over a line: the run of non-space characters the
line starts with (possibly empty), and the non-empty runs after it. -/
def scan_runs : List CChar → List CChar × List (List CChar)
  | [] => ([], [])
  | c :: cs =>
    if c = 32 then ([], if (scan_runs cs).1 = [] then (scan_runs cs).2
                        else (scan_runs cs).1 :: (scan_runs cs).2)
    else (c :: (scan_runs cs).1, (scan_runs cs).2)

/-- The non-empty runs of non-space characters, from `scan_runs`. -/
def runs (l : List CChar) : List (List CChar) :=
  if (scan_runs l).1 = [] then (scan_runs l).2 else (scan_runs l).1 :: (scan_runs l).2

/-! ## The tokenizer -/

theorem str_space : str " " = [32] := by decide

theorem str_empty : str "" = [] := by decide

theorem scan_runs_splitOn (l : List CChar) :
    ∃ tl, l.splitOn 32 = (scan_runs l).1 :: tl ∧
      (scan_runs l).2 = tl.filter (fun piece => !piece.isEmpty) := by
  induction l with
  | nil => exact ⟨[], by simp [scan_runs]⟩
  | cons c cs ih =>
    obtain ⟨tl, h1, h2⟩ := ih
    have hs : (c :: cs).splitOn 32 =
        if (c == 32) = true then [] :: cs.splitOn 32
        else List.modifyHead (List.cons c) (cs.splitOn 32) :=
      List.splitOnP_cons _ c cs
    by_cases hc : c = 32
    · refine ⟨(scan_runs cs).1 :: tl, ?_, ?_⟩
      · rw [hs, h1]; simp [scan_runs, hc]
      · cases hh : (scan_runs cs).1 with
        | nil => simp [scan_runs, hc, hh, h2]
        | cons a as => simp [scan_runs, hc, hh, h2]
    · refine ⟨tl, ?_, ?_⟩
      · rw [hs, h1]; simp [scan_runs, hc]
      · simp [scan_runs, hc, h2]

theorem maximal_runs_eq_runs (l : List CChar) : maximal_runs 32 l = runs l := by
  obtain ⟨tl, h1, h2⟩ := scan_runs_splitOn l
  unfold maximal_runs runs
  rw [h1, h2]
  cases hh : (scan_runs l).1 with
  | nil => simp
  | cons a as => simp

theorem runs_nil : runs [] = [] := by simp [runs, scan_runs]

theorem runs_space (cs : List CChar) : runs (32 :: cs) = runs cs := by
  simp [runs, scan_runs]

theorem runs_char (c : CChar) (cs : List CChar) (hc : c ≠ 32) :
    runs (c :: cs) = (c :: (scan_runs cs).1) :: (scan_runs cs).2 := by
  simp [runs, scan_runs, hc]


theorem scan_runs_strtok (l : List CChar) :
    (scan_runs l).1 = l.takeWhile (fun d => !decide (d ∈ [(32 : CChar)])) ∧
    (scan_runs l).2 = runs ((l.dropWhile (fun d => !decide (d ∈ [(32 : CChar)]))).drop 1) := by
  induction l with
  | nil => simp [scan_runs, runs]
  | cons c cs ih =>
    by_cases hc : c = 32
    · subst hc
      simp [scan_runs, runs]
    · simp [scan_runs, hc, ih.1, ih.2]

theorem strtok_runs (s : List CChar) :
    match strtok [32] s with
    | none => runs s = []
    | some (token, rest) => runs s = token :: runs rest ∧ rest.length < s.length := by
  induction s with
  | nil => simp [strtok, runs, scan_runs]
  | cons c cs ih =>
    by_cases hc : c = 32
    · subst hc
      have e : strtok [32] (32 :: cs) = strtok [32] cs := by simp [strtok]
      rw [e, runs_space]
      cases h : strtok [32] cs with
      | none => rw [h] at ih; simpa using ih
      | some p =>
        rw [h] at ih
        obtain ⟨token, rest⟩ := p
        exact ⟨ih.1, Nat.lt_succ_of_lt ih.2⟩
    · have e : strtok [32] (c :: cs) =
          some ((c :: cs).takeWhile (fun d => !decide (d ∈ [(32 : CChar)])),
            ((c :: cs).dropWhile (fun d => !decide (d ∈ [(32 : CChar)]))).drop 1) := by
        simp [strtok, hc]
      rw [e]
      have h := scan_runs_strtok cs
      refine ⟨?_, ?_⟩
      · rw [runs_char c cs hc, h.1, h.2]; simp [hc]
      · simp only [List.length_drop]
        have hd : (List.dropWhile (fun d => !decide (d ∈ [(32 : CChar)])) (c :: cs)).length
            ≤ cs.length := by
          have e2 : List.dropWhile (fun d => !decide (d ∈ [(32 : CChar)])) (c :: cs)
              = List.dropWhile (fun d => !decide (d ∈ [(32 : CChar)])) cs := by simp [hc]
          rw [e2]; exact (List.dropWhile_suffix _).length_le
        simp only [List.length_cons]
        omega

theorem split_loop_spec (fuel : Nat) :
    ∀ (s : List CChar) (position : Nat) (tokens : List (List CChar)) (writes : List Nat),
      s.length < fuel →
      split_loop [32] fuel s position tokens writes =
        ⟨tokens ++ runs s, writes ++ List.range' position ((runs s).length + 1)⟩ := by
  induction fuel with
  | zero => intro s _ _ _ h; exact absurd h (Nat.not_lt_zero _)
  | succ n ih =>
    intro s position tokens writes h
    have hs := strtok_runs s
    unfold split_loop
    cases hst : strtok [32] s with
    | none =>
      rw [hst] at hs
      simp only at hs
      simp [hs]
    | some p =>
      obtain ⟨token, rest⟩ := p
      rw [hst] at hs
      simp only at hs
      simp only
      rw [ih rest (position + 1) (tokens ++ [token]) (writes ++ [position]) (by omega), hs.1]
      simp [List.range'_succ]

theorem split_command_line_eq (line : List CChar) :
    split_command_line line =
      ⟨runs line, List.range ((runs line).length + 1)⟩ := by
  unfold split_command_line
  rw [str_space, split_loop_spec _ line 0 [] [] (Nat.lt_succ_self _), List.range_eq_range']
  simp


theorem scan_runs_clean (l : List CChar) :
    (32 : CChar) ∉ (scan_runs l).1 ∧ ∀ t ∈ (scan_runs l).2, t ≠ [] ∧ (32 : CChar) ∉ t := by
  induction l with
  | nil => simp [scan_runs]
  | cons c cs ih =>
    by_cases hc : c = 32
    · subst hc
      cases hh : (scan_runs cs).1 with
      | nil => simpa [scan_runs, hh] using ih.2
      | cons a as =>
        rw [hh] at ih
        simp only [scan_runs, hh, if_true, if_false, List.not_mem_nil, not_false_eq_true,
          true_and, List.mem_cons, reduceCtorEq]
        intro t ht
        rcases ht with rfl | ht
        · exact ⟨by simp, ih.1⟩
        · exact ih.2 t ht
    · have hc2 : ¬ (32 : CChar) = c := fun h => hc h.symm
      simp only [scan_runs, hc, if_false, List.mem_cons, not_or]
      exact ⟨⟨hc2, ih.1⟩, ih.2⟩

theorem runs_clean (l : List CChar) : ∀ t ∈ runs l, t ≠ [] ∧ (32 : CChar) ∉ t := by
  have h := scan_runs_clean l
  unfold runs
  by_cases hh : (scan_runs l).1 = []
  · simpa [hh] using h.2
  · simp only [hh, if_false, List.mem_cons]
    intro t ht
    rcases ht with rfl | ht
    · exact ⟨hh, h.1⟩
    · exact h.2 t ht

theorem scan_runs_flatten (l : List CChar) :
    (scan_runs l).1 ++ (scan_runs l).2.flatten = l.filter (fun c => decide (c ≠ 32)) := by
  induction l with
  | nil => simp [scan_runs]
  | cons c cs ih =>
    by_cases hc : c = 32
    · subst hc
      cases hh : (scan_runs cs).1 with
      | nil => rw [hh] at ih; simpa [scan_runs, hh] using ih
      | cons a as => rw [hh] at ih; simpa [scan_runs, hh] using ih
    · simp [scan_runs, hc, ih]

theorem runs_flatten (l : List CChar) :
    (runs l).flatten = l.filter (fun c => decide (c ≠ 32)) := by
  rw [← scan_runs_flatten l]
  unfold runs
  by_cases hh : (scan_runs l).1 = []
  · simp [hh]
  · simp [hh]

theorem runs_single (l : List CChar) (h : (32 : CChar) ∉ l) (hne : l ≠ []) : runs l = [l] := by
  have hs : ∀ l : List CChar, (32 : CChar) ∉ l → scan_runs l = (l, []) := by
    intro l
    induction l with
    | nil => intro _; rfl
    | cons c cs ih =>
      intro h
      simp only [List.mem_cons, not_or] at h
      have hc : ¬ c = 32 := fun e => h.1 e.symm
      simp [scan_runs, hc, ih h.2]
  simp [runs, hs l h, hne]


theorem join_tokens_nil : join_tokens [] = [] := by
  simp [join_tokens, List.intercalate]

theorem join_tokens_single (a : List CChar) : join_tokens [a] = a := by
  simp [join_tokens, List.intercalate, List.intersperse]

theorem join_tokens_cons (a b : List CChar) (r : List (List CChar)) :
    join_tokens (a :: b :: r) = a ++ 32 :: join_tokens (b :: r) := by
  simp [join_tokens, List.intercalate, List.intersperse]

theorem remove_trailing_spaces_nil : remove_trailing_spaces [] = [] := by
  simp [remove_trailing_spaces]

theorem remove_trailing_spaces_cons (x : CChar) (xs : List CChar) :
    remove_trailing_spaces (x :: xs) =
      if remove_trailing_spaces xs = [] ∧ x = 32 then []
      else x :: remove_trailing_spaces xs := by
  unfold remove_trailing_spaces List.rdropWhile
  rw [List.reverse_cons, List.dropWhile_append]
  by_cases hd : List.dropWhile (fun c => decide (c = 32)) xs.reverse = []
  · by_cases hx : x = 32
    · simp [hd, hx]
    · simp [hd, hx]
  · simp [hd]

theorem remove_duplicate_spaces_char (c : CChar) (cs : List CChar) (hc : c ≠ 32) :
    remove_duplicate_spaces (c :: cs) = c :: remove_duplicate_spaces cs := by
  cases cs with
  | nil => simp [remove_duplicate_spaces]
  | cons d rest => simp [remove_duplicate_spaces, hc]

theorem trailing_duplicate_eq_join (l : List CChar) :
    remove_trailing_spaces (remove_duplicate_spaces l) =
      join_tokens ((scan_runs l).1 :: (scan_runs l).2) := by
  induction l with
  | nil => simp [remove_duplicate_spaces, remove_trailing_spaces, scan_runs, join_tokens_single]
  | cons c cs ih =>
    by_cases hc : c = 32
    · subst hc
      cases cs with
      | nil =>
        simp [remove_duplicate_spaces, remove_trailing_spaces_cons, remove_trailing_spaces_nil,
          scan_runs, join_tokens_single]
      | cons d ds =>
        by_cases hd : d = 32
        · subst hd
          have e : remove_duplicate_spaces (32 :: 32 :: ds) = remove_duplicate_spaces (32 :: ds) := by
            simp [remove_duplicate_spaces]
          rw [e, ih]
          simp [scan_runs]
        · have e : remove_duplicate_spaces (32 :: d :: ds) =
              32 :: remove_duplicate_spaces (d :: ds) := by
            simp [remove_duplicate_spaces, hd]
          rw [e, remove_trailing_spaces_cons, ih]
          have hne : join_tokens ((scan_runs (d :: ds)).1 :: (scan_runs (d :: ds)).2) ≠ [] := by
            cases h2 : (scan_runs ds).2 with
            | nil => simp [scan_runs, hd, h2, join_tokens_single]
            | cons b r => simp [scan_runs, hd, h2, join_tokens_cons]
          simp only [hne, false_and, if_false]
          simp [scan_runs, hd, join_tokens_cons]
    · rw [remove_duplicate_spaces_char c cs hc, remove_trailing_spaces_cons, ih]
      have hcc : ¬ (remove_trailing_spaces (remove_duplicate_spaces cs) = [] ∧ c = 32) :=
        fun h => hc h.2
      rw [← ih, if_neg hcc, ih]
      cases h2 : (scan_runs cs).2 with
      | nil => simp [scan_runs, hc, h2, join_tokens_single]
      | cons b r => simp [scan_runs, hc, h2, join_tokens_cons]

theorem normalize_spaces_space (cs : List CChar) :
    normalize_spaces (32 :: cs) = normalize_spaces cs := by
  unfold normalize_spaces
  congr 1
  cases cs with
  | nil => simp [remove_duplicate_spaces, remove_leading_spaces]
  | cons d ds =>
    by_cases hd : d = 32
    · subst hd; simp [remove_duplicate_spaces]
    · simp [remove_duplicate_spaces, remove_leading_spaces, hd]

theorem join_runs_eq_normalize (l : List CChar) :
    join_tokens (runs l) = normalize_spaces l := by
  induction l with
  | nil =>
    simp [runs, scan_runs, join_tokens_nil, normalize_spaces, remove_duplicate_spaces,
      remove_leading_spaces, remove_trailing_spaces]
  | cons c cs ih =>
    by_cases hc : c = 32
    · subst hc
      rw [runs_space, normalize_spaces_space, ih]
    · rw [runs_char c cs hc]
      unfold normalize_spaces
      rw [remove_duplicate_spaces_char c cs hc]
      have e : remove_leading_spaces (c :: remove_duplicate_spaces cs) =
          c :: remove_duplicate_spaces cs := by
        simp [remove_leading_spaces, hc]
      have hcc : ¬ (remove_trailing_spaces (remove_duplicate_spaces cs) = [] ∧ c = 32) :=
        fun h => hc h.2
      rw [e, remove_trailing_spaces_cons, if_neg hcc, trailing_duplicate_eq_join]
      cases h2 : (scan_runs cs).2 with
      | nil => simp [join_tokens_single]
      | cons b r => simp [join_tokens_cons]

theorem runs_join (ts : List (List CChar)) (h : ∀ t ∈ ts, t ≠ [] ∧ (32 : CChar) ∉ t) :
    runs (join_tokens ts) = ts := by
  rw [← maximal_runs_eq_runs]
  unfold maximal_runs join_tokens
  by_cases hts : ts = []
  · subst hts; simp [List.intercalate]
  · rw [List.splitOn_intercalate ts 32 (fun l hl => (h l hl).2) hts]
    rw [List.filter_eq_self]
    intro t ht
    have := (h t ht).1
    cases t with
    | nil => exact absurd rfl this
    | cons a as => rfl


theorem split_command_line_tokens (line : List CChar) :
    (split_command_line line).tokens = runs line := by
  rw [split_command_line_eq]

theorem split_command_line_writes (line : List CChar) :
    (split_command_line line).writes =
      List.range ((split_command_line line).tokens.length + 1) := by
  rw [split_command_line_eq]

theorem split_command_line_in_bounds_iff (line : List CChar) :
    (∀ i ∈ (split_command_line line).writes, i < no_of_tokens) ↔
      (split_command_line line).tokens.length < no_of_tokens := by
  rw [split_command_line_writes]
  constructor
  · intro h
    exact h _ (List.mem_range.mpr (Nat.lt_succ_self _))
  · intro h i hi
    have := List.mem_range.mp hi
    omega

theorem split_command_line_argv (line : List CChar) :
    (split_command_line line).argv =
      if (runs line).length < no_of_tokens then some (runs line) else none := by
  unfold SplitResult.argv
  by_cases h : (runs line).length < no_of_tokens
  · have hb := (split_command_line_in_bounds_iff line).mpr
      (by rw [split_command_line_tokens]; exact h)
    rw [if_pos hb, if_pos h, split_command_line_tokens]
  · have hb : ¬ ∀ i ∈ (split_command_line line).writes, i < no_of_tokens := by
      intro hh
      have := (split_command_line_in_bounds_iff line).mp hh
      rw [split_command_line_tokens] at this
      exact h this
    rw [if_neg hb, if_neg h]

/-- On a line with fewer than 64 maximal runs of non-space characters every
store of the tokenizer is inside the array, and the vector it returns is
exactly those runs: no token is empty, none contains a space, concatenated they
are the line with its spaces deleted, joined with single spaces they are the
line with leading, trailing and duplicate spaces removed, and tokenizing that
joined text gives the same vector again. -/
theorem split_command_line_below_capacity (line : List CChar)
    (h : (maximal_runs 32 line).length < no_of_tokens) :
    (∀ i ∈ (split_command_line line).writes, i < no_of_tokens) ∧
    (split_command_line line).argv = some (maximal_runs 32 line) ∧
    (∀ t ∈ maximal_runs 32 line, t ≠ [] ∧ (32 : CChar) ∉ t) ∧
    (maximal_runs 32 line).flatten = line.filter (fun c => decide (c ≠ 32)) ∧
    join_tokens (maximal_runs 32 line) = normalize_spaces line ∧
    (split_command_line (join_tokens (maximal_runs 32 line))).argv =
      some (maximal_runs 32 line) := by
  rw [maximal_runs_eq_runs] at h ⊢
  refine ⟨?_, ?_, runs_clean line, runs_flatten line, join_runs_eq_normalize line, ?_⟩
  · exact (split_command_line_in_bounds_iff line).mpr
      (by rw [split_command_line_tokens]; exact h)
  · rw [split_command_line_argv, if_pos h]
  · rw [split_command_line_argv, runs_join _ (runs_clean line), if_pos h]

/-- A tab is not a delimiter: a space-free text around a tab is one token. -/
theorem split_command_line_tab (a b : List CChar) (ha : (32 : CChar) ∉ a)
    (hb : (32 : CChar) ∉ b) :
    (split_command_line (a ++ 9 :: b)).argv = some [a ++ 9 :: b] := by
  have hr : runs (a ++ 9 :: b) = [a ++ 9 :: b] := by
    apply runs_single
    · simp only [List.mem_append, List.mem_cons, not_or]
      exact ⟨ha, by decide, hb⟩
    · simp
  rw [split_command_line_argv, hr]
  rfl

theorem runs_replicate_join (n : Nat) (t : List CChar) (h : t ≠ [] ∧ (32 : CChar) ∉ t) :
    runs (join_tokens (List.replicate n t)) = List.replicate n t := by
  apply runs_join
  intro u hu
  rw [List.eq_of_mem_replicate hu]
  exact h

/-- C1 (the code breaks it, by the defect of C10): the line of 65 one-letter
tokens has 65 maximal runs of non-space characters, but the tokenizer stores
the 65th token at index 64 and the `NULL` sentinel at index 65, both outside
the array of 64 slots, so the code defines no vector for this line. -/
theorem split_command_line_undefined_at_65_tokens :
    (maximal_runs 32 (join_tokens (List.replicate 65 (str "a")))).length = 65 ∧
    64 ∈ (split_command_line (join_tokens (List.replicate 65 (str "a")))).writes ∧
    65 ∈ (split_command_line (join_tokens (List.replicate 65 (str "a")))).writes ∧
    ¬ (64 < no_of_tokens) ∧
    (split_command_line (join_tokens (List.replicate 65 (str "a")))).argv = none := by
  have h := runs_replicate_join 65 (str "a") (by decide)
  refine ⟨?_, ?_, ?_, by decide, ?_⟩
  · rw [maximal_runs_eq_runs, h]; simp
  · rw [split_command_line_writes, split_command_line_tokens, h]; simp
  · rw [split_command_line_writes, split_command_line_tokens, h]; simp
  · rw [split_command_line_argv, h]
    simp [no_of_tokens]

/-- C4 (the code breaks it, by the defect of C10): for the line made of a space
and 65 one-letter tokens, the text with leading, trailing and duplicate spaces
removed is the 65 tokens joined by single spaces, but the code defines no token
vector to join, neither for the line nor for that joined text: in both runs the
65th token and the sentinel are stored outside the array of 64 slots. -/
theorem split_join_undefined_at_65_tokens :
    normalize_spaces (32 :: join_tokens (List.replicate 65 (str "b"))) =
      join_tokens (List.replicate 65 (str "b")) ∧
    (split_command_line (32 :: join_tokens (List.replicate 65 (str "b")))).argv = none ∧
    ((split_command_line (32 :: join_tokens (List.replicate 65 (str "b")))).argv.map
        join_tokens ≠
      some (normalize_spaces (32 :: join_tokens (List.replicate 65 (str "b"))))) ∧
    (split_command_line (join_tokens (List.replicate 65 (str "b")))).argv = none := by
  have h := runs_replicate_join 65 (str "b") (by decide)
  have e1 : (split_command_line (32 :: join_tokens (List.replicate 65 (str "b")))).argv
      = none := by
    rw [split_command_line_argv, runs_space, h]
    simp [no_of_tokens]
  refine ⟨?_, e1, ?_, ?_⟩
  · rw [← join_runs_eq_normalize, runs_space, h]
  · rw [e1]; simp
  · rw [split_command_line_argv, h]
    simp [no_of_tokens]

/-- C10 (the code breaks it): on a line of 64 one-letter tokens the tokenizer
finds 64 tokens and stores the `NULL` sentinel at index 64, which is not below
the capacity of 64 slots. -/
theorem split_command_line_sentinel_out_of_bounds :
    (split_command_line (join_tokens (List.replicate 64 (str "a")))).tokens.length = 64 ∧
    64 ∈ (split_command_line (join_tokens (List.replicate 64 (str "a")))).writes ∧
    ¬ (64 < no_of_tokens) := by
  have h : runs (join_tokens (List.replicate 64 (str "a"))) = List.replicate 64 (str "a") := by
    apply runs_join
    intro t ht
    rw [List.eq_of_mem_replicate ht]
    decide
  refine ⟨?_, ?_, by decide⟩
  · rw [split_command_line_tokens, h]; simp
  · rw [split_command_line_writes, split_command_line_tokens, h]; simp


/-! ## The line reader -/

theorem toChar_EOF : toChar EOF = EOF := by decide

theorem poke_end (m : Mem) (c : CChar) : poke m m.length c = m ++ [c] := by
  simp [poke]

theorem read_loop_in_bounds (line : List Nat) :
    ∀ (rest : List Nat) (m : Mem) (buf_size : Nat) (writes : List (Nat × Nat)),
      (∀ b ∈ line, 0 < b ∧ b < 128 ∧ b ≠ 10) →
      m.length + line.length ≤ buf_size →
      read_loop (line ++ 10 :: rest) m m.length buf_size writes =
        ⟨m ++ line.map Int.ofNat, m.length + line.length, buf_size,
          writes ++ (List.range' m.length line.length).map (fun i => (i, buf_size)), rest⟩ := by
  induction line with
  | nil =>
    intro rest m buf_size writes _ _
    simp [read_loop, getchar, toChar, EOF]
  | cons b bs ih =>
    intro rest m buf_size writes h hlen
    have hb := h b (List.mem_cons_self b bs)
    have hmod : b % 256 = b := Nat.mod_eq_of_lt (by omega)
    have hc : toChar (getchar (b :: (bs ++ 10 :: rest))).1 = Int.ofNat b := by
      simp only [getchar, toChar, hmod, Int.ofNat_eq_coe]
      have : ((b : Int) + 128) % 256 = (b : Int) + 128 :=
        Int.emod_eq_of_lt (by omega) (by omega)
      rw [this]; exact Int.add_sub_cancel _ _
    have hcond : toChar (getchar (b :: (bs ++ 10 :: rest))).1 ≠ EOF ∧
        toChar (getchar (b :: (bs ++ 10 :: rest))).1 ≠ 10 := by
      rw [hc]
      refine ⟨?_, ?_⟩
      · intro e
        have e2 : (b : Int) = -1 := e
        omega
      · intro e
        have e2 : (b : Int) = 10 := e
        omega
    simp only [List.length_cons] at hlen
    have hlt : ¬ m.length ≥ buf_size := by omega
    have step : read_loop ((b :: bs) ++ 10 :: rest) m m.length buf_size writes =
        read_loop (bs ++ 10 :: rest) (m ++ [Int.ofNat b]) (m ++ [Int.ofNat b]).length
          buf_size (writes ++ [(m.length, buf_size)]) := by
      rw [List.cons_append, read_loop, if_pos hcond, hc, poke_end, if_neg hlt]
      simp
    rw [step, ih rest (m ++ [Int.ofNat b]) buf_size (writes ++ [(m.length, buf_size)])
      (fun x hx => h x (List.mem_cons_of_mem b hx))
      (by simp only [List.length_append, List.length_singleton]; omega)]
    simp only [List.length_append, List.length_singleton, List.length_cons, List.map_cons,
      List.range'_succ, List.append_assoc, List.singleton_append, ReadResult.mk.injEq,
      and_true, true_and, List.length_nil, Nat.zero_add]
    omega

/-- On a zero-filled block, a line of fewer than 1024 bytes in `1 .. 127` other
than the line break, followed by a line break, is read as it stands, with every
store inside the block, and the rest of the input is left for the next call. -/
theorem read_command_line_plain_line (line rest : List Nat)
    (h : ∀ b ∈ line, 0 < b ∧ b < 128 ∧ b ≠ 10) (hlen : line.length < 1024) :
    (read_command_line [] (line ++ 10 :: rest)).line = some (line.map Int.ofNat) ∧
    (read_command_line [] (line ++ 10 :: rest)).stdin = rest := by
  have e := read_loop_in_bounds line rest [] 1024 [] h
    (by simp only [List.length_nil]; omega)
  simp only [List.length_nil, List.nil_append, Nat.zero_add] at e
  unfold read_command_line
  rw [e]
  have hc : cstr (line.map Int.ofNat) = line.map Int.ofNat := by
    rw [cstr, List.takeWhile_eq_self_iff]
    intro c hc
    obtain ⟨b, hb, rfl⟩ := List.mem_map.mp hc
    have hpos := (h b hb).1
    simp only [ne_eq, decide_eq_true_eq]
    intro e0
    have e2 : (b : Int) = 0 := e0
    omega
  refine ⟨?_, rfl⟩
  unfold ReadResult.line
  simp only [hc, List.length_map]
  rw [if_pos]
  refine ⟨?_, hlen⟩
  intro p hp
  obtain ⟨i, hi, rfl⟩ := List.mem_map.mp hp
  have := List.mem_range'_1.mp hi
  simp only
  omega

theorem read_loop_below_capacity (n : Nat) :
    ∀ (rest : List Nat) (command : Mem) (position buf_size : Nat) (writes : List (Nat × Nat)),
      position + n ≤ buf_size →
      ∃ command' writes',
        read_loop (List.replicate n 97 ++ rest) command position buf_size writes =
          read_loop rest command' (position + n) buf_size writes' := by
  induction n with
  | zero => intro rest command position buf_size writes _; exact ⟨command, writes, by simp⟩
  | succ k ih =>
    intro rest command position buf_size writes h
    have hlt : ¬ position ≥ buf_size := by omega
    obtain ⟨command', writes', e⟩ := ih rest (poke command position 97) (position + 1) buf_size
      (writes ++ [(position, buf_size)]) (by omega)
    refine ⟨command', writes', ?_⟩
    have step : read_loop (List.replicate (k + 1) 97 ++ rest) command position buf_size writes =
        read_loop (List.replicate k 97 ++ rest) (poke command position 97) (position + 1)
          buf_size (writes ++ [(position, buf_size)]) := by
      rw [List.replicate_succ, List.cons_append, read_loop]
      simp [getchar, toChar, EOF, hlt]
    rw [step, e]
    congr 1
    omega

/-- C9 (the code breaks it): on a line of 1025 characters the store of the
character at index 1024 happens while the capacity is still 1024; the capacity
is raised to 1088 only after that store. -/
theorem read_command_line_store_at_capacity :
    (1024, 1024) ∈ (read_command_line [] (List.replicate 1025 97 ++ [10])).writes ∧
    ¬ (1024 < 1024) ∧
    (read_command_line [] (List.replicate 1025 97 ++ [10])).buf_size = 1088 := by
  obtain ⟨command', writes', e⟩ :=
    read_loop_below_capacity 1024 (97 :: [10]) [] 0 1024 [] (by omega)
  have hsplit : List.replicate 1025 97 ++ [10] = List.replicate 1024 97 ++ (97 :: [10]) := by
    have h1 : List.replicate (1024 + 1) (97 : Nat) = List.replicate 1024 97 ++ [97] :=
      List.replicate_succ' 1024 97
    show List.replicate (1024 + 1) 97 ++ [10] = _
    rw [h1, List.append_assoc]
    rfl
  have hrun : read_command_line [] (List.replicate 1025 97 ++ [10]) =
      ⟨poke command' 1024 97, 1025, 1088, writes' ++ [(1024, 1024)], []⟩ := by
    unfold read_command_line
    rw [hsplit, e]
    simp [read_loop, getchar, toChar, EOF]
  rw [hrun]
  exact ⟨by simp, by omega, rfl⟩

/-- C6 (the code breaks it): no terminator is stored, so with a block whose
initial bytes are `xxx` the line read from `ls` and a line break is `lsx`; and
the byte 255, which `char c` turns into `-1`, ends the line like `EOF`, so from
`a`, 255, `b` and a line break the line is `a` and `b` is left unread. -/
theorem read_command_line_line_end_wrong :
    cstr (read_command_line (str "xxx") (bytes "ls\n")).command = str "lsx" ∧
    (read_command_line (str "xxx") (bytes "ls\n")).position = 2 ∧
    cstr (read_command_line [] [97, 255, 98, 10]).command = str "a" ∧
    (read_command_line [] [97, 255, 98, 10]).stdin = [98, 10] := by
  decide


/-! ## Builtins, dispatch and the loop -/

theorem shell_execute_cons (env : Env) (w : World) (arg0 : List CChar)
    (rest : List (List CChar)) :
    shell_execute env w (arg0 :: rest) =
      if arg0 = str "cd" then some (shell_cd env w (arg0 :: rest))
      else if arg0 = str "exit" then some (shell_exit env w (arg0 :: rest))
      else if arg0 = str "help" then some (shell_help env w (arg0 :: rest))
      else start_process env w (arg0 :: rest) := by
  simp only [shell_execute, builtin, builtin_function, BUILTIN_COMMANDS, List.zip_cons_cons,
    List.zip_nil_right, List.take_succ_cons, List.take_zero, List.take_nil, scan_builtins,
    strcmp]
  by_cases h1 : arg0 = str "cd"
  · simp [h1]
  · by_cases h2 : arg0 = str "exit"
    · simp [h1, h2]
    · by_cases h3 : arg0 = str "help"
      · simp [h1, h2, h3]
      · simp [h1, h2, h3]

theorem wait_loop_returns (sts : List WaitStatus) :
    ∀ w : World, (∃ st ∈ sts, st = WaitStatus.exited ∨ st = WaitStatus.signaled) →
      ∃ w', wait_loop sts w = some w' := by
  induction sts with
  | nil => intro w h; obtain ⟨st, hst, _⟩ := h; exact absurd hst (List.not_mem_nil st)
  | cons st rest ih =>
    intro w h
    unfold wait_loop
    by_cases hs : st ≠ WaitStatus.exited ∧ st ≠ WaitStatus.signaled
    · rw [if_pos hs]
      apply ih
      obtain ⟨st', hmem, hst'⟩ := h
      rcases List.mem_cons.mp hmem with e | hin
      · subst e
        rcases hst' with e1 | e2
        · exact absurd e1 hs.1
        · exact absurd e2 hs.2
      · exact ⟨st', hin, hst'⟩
    · rw [if_neg hs]
      exact ⟨_, rfl⟩

theorem start_process_signal (env : Env) (w : World) (args : List (List CChar))
    (r : Int) (w' : World) (h : start_process env w args = some (r, w')) : r = 1 := by
  unfold start_process at h
  simp only at h
  split_ifs at h with h0 h1
  · simp only [Option.some.injEq, Prod.mk.injEq] at h; exact h.1.symm
  · simp only [Option.some.injEq, Prod.mk.injEq] at h; exact h.1.symm
  · split at h
    · exact absurd h (by simp)
    · simp only [Option.some.injEq, Prod.mk.injEq] at h; exact h.1.symm

theorem start_process_returns (env : Env) (w : World) (args : List (List CChar))
    (h : env.fork ≤ 0 ∨ ∃ st ∈ env.waitpid, st = WaitStatus.exited ∨ st = WaitStatus.signaled) :
    ∃ w', start_process env w args = some (1, w') := by
  unfold start_process
  simp only
  split_ifs with h0 h1
  · exact ⟨_, rfl⟩
  · exact ⟨_, rfl⟩
  · rcases h with hle | hw
    · omega
    · obtain ⟨w2, e⟩ := wait_loop_returns env.waitpid
        (emit (emit w (.fork env.fork)) (.stdout "\nParent Process!")) hw
      rw [e]
      exact ⟨w2, rfl⟩


/-- C2: `shell_execute` returns the STOP signal `0` exactly when the vector is
non-empty and its first string is `exit`: whenever it returns, the signal is
`0` for `exit` and `1` otherwise; `exit` returns `0` whatever follows it; the
empty vector, `cd` and `help` return `1`; and every other command name returns
`1` as soon as `fork` fails, or the child branch is taken, or `waitpid` reports
the end of the child. -/
theorem shell_execute_stop_iff_exit (env : Env) (w : World) (args : List (List CChar)) :
    ((∃ w', shell_execute env w args = some (0, w')) ↔ args.head? = some (str "exit")) ∧
    (∀ r w', shell_execute env w args = some (r, w') →
      (r = 0 ∧ args.head? = some (str "exit")) ∨ (r = 1 ∧ args.head? ≠ some (str "exit"))) ∧
    (args.head? = some (str "exit") → shell_execute env w args = some (0, w)) ∧
    (args = [] → shell_execute env w args = some (1, w)) ∧
    (args.head? = some (str "cd") → ∃ w', shell_execute env w args = some (1, w')) ∧
    (args.head? = some (str "help") → ∃ w', shell_execute env w args = some (1, w')) ∧
    (∀ arg0, args.head? = some arg0 → arg0 ∉ builtin →
      (env.fork ≤ 0 ∨ ∃ st ∈ env.waitpid, st = WaitStatus.exited ∨ st = WaitStatus.signaled) →
      ∃ w', shell_execute env w args = some (1, w')) := by
  have key : ∀ r w', shell_execute env w args = some (r, w') →
      (r = 0 ∧ args.head? = some (str "exit")) ∨ (r = 1 ∧ args.head? ≠ some (str "exit")) := by
    intro r w' h
    cases args with
    | nil =>
      simp only [shell_execute, Option.some.injEq, Prod.mk.injEq] at h
      exact Or.inr ⟨h.1.symm, by simp⟩
    | cons arg0 rest =>
      rw [shell_execute_cons] at h
      simp only [List.head?_cons, Option.some.injEq, ne_eq]
      split_ifs at h with h1 h2 h3
      · have hne : arg0 ≠ str "exit" := by rw [h1]; decide
        have e : r = 1 := by
          simp only [Option.some.injEq] at h
          have := congrArg Prod.fst h
          unfold shell_cd at this
          split at this
          · exact this.symm
          · split at this <;> exact this.symm
        exact Or.inr ⟨e, hne⟩
      · simp only [shell_exit, Option.some.injEq, Prod.mk.injEq] at h
        exact Or.inl ⟨h.1.symm, h2⟩
      · simp only [shell_help, Option.some.injEq, Prod.mk.injEq] at h
        exact Or.inr ⟨h.1.symm, h2⟩
      · exact Or.inr ⟨start_process_signal env w _ r w' h, h2⟩
  have hexit : args.head? = some (str "exit") → shell_execute env w args = some (0, w) := by
    intro h
    cases args with
    | nil => simp at h
    | cons arg0 rest =>
      simp only [List.head?_cons, Option.some.injEq] at h
      subst h
      rw [shell_execute_cons]
      have h1 : str "exit" ≠ str "cd" := by decide
      simp [h1, shell_exit]
  refine ⟨⟨?_, ?_⟩, key, hexit, ?_, ?_, ?_, ?_⟩
  · rintro ⟨w', h⟩
    rcases key 0 w' h with ⟨_, h2⟩ | ⟨h1, _⟩
    · exact h2
    · exact absurd h1 (by decide)
  · intro h
    exact ⟨w, hexit h⟩
  · intro h
    subst h
    rfl
  · intro h
    cases args with
    | nil => simp at h
    | cons arg0 rest =>
      simp only [List.head?_cons, Option.some.injEq] at h
      subst h
      rw [shell_execute_cons, if_pos rfl]
      unfold shell_cd
      split
      · exact ⟨_, rfl⟩
      · split <;> exact ⟨_, rfl⟩
  · intro h
    cases args with
    | nil => simp at h
    | cons arg0 rest =>
      simp only [List.head?_cons, Option.some.injEq] at h
      subst h
      rw [shell_execute_cons]
      have h1 : str "help" ≠ str "cd" := by decide
      have h2 : str "help" ≠ str "exit" := by decide
      simp only [h1, h2, if_false, if_true]
      exact ⟨_, rfl⟩
  · intro arg0 h hnb hret
    cases args with
    | nil => simp at h
    | cons a rest =>
      simp only [List.head?_cons, Option.some.injEq] at h
      subst h
      simp only [builtin, List.mem_cons, List.not_mem_nil, or_false, not_or] at hnb
      rw [shell_execute_cons, if_neg hnb.1, if_neg hnb.2.1, if_neg hnb.2.2]
      exact start_process_returns env w _ hret

theorem shell_execute_stop_iff_exit_witness :
    shell_execute ⟨[], fun _ _ => none, 7, [WaitStatus.exited]⟩ ⟨str "/", [], []⟩
        [str "exit", str "now"] = some (0, ⟨str "/", [], []⟩) ∧
    ∃ w', shell_execute ⟨[], fun _ _ => none, 7, [WaitStatus.stopped, WaitStatus.exited]⟩
        ⟨str "/", [], []⟩ [str "ls", str "-l"] = some (1, w') :=
  ⟨(shell_execute_stop_iff_exit ⟨[], fun _ _ => none, 7, [WaitStatus.exited]⟩ ⟨str "/", [], []⟩
      [str "exit", str "now"]).2.2.1 (by decide),
   (shell_execute_stop_iff_exit ⟨[], fun _ _ => none, 7, [WaitStatus.stopped, WaitStatus.exited]⟩
      ⟨str "/", [], []⟩ [str "ls", str "-l"]).2.2.2.2.2.2 (str "ls") (by decide) (by decide)
      (Or.inr ⟨WaitStatus.exited, by decide, Or.inl rfl⟩)⟩


theorem runs_spaces (k : Nat) : runs (List.replicate k 32) = [] := by
  induction k with
  | zero => exact runs_nil
  | succ n ih => rw [List.replicate_succ, runs_space, ih]

theorem wait_loop_events (sts : List WaitStatus) :
    ∀ w w' : World, wait_loop sts w = some w' → w.events.length < w'.events.length := by
  induction sts with
  | nil => intro w w' h; simp [wait_loop] at h
  | cons st rest ih =>
    intro w w' h
    unfold wait_loop at h
    split_ifs at h
    · have := ih _ _ h
      simp only [emit, List.length_append, List.length_singleton] at this
      omega
    · simp only [Option.some.injEq] at h
      subst h
      simp [emit]

/-- Every call of a builtin handler or of `start_process` can be seen in the
result of `shell_execute`: it logs an action, or the signal is not `1`. -/
theorem dispatch_is_observable (env : Env) (w w' : World) (arg0 : List CChar)
    (rest : List (List CChar)) (r : Int)
    (h : shell_execute env w (arg0 :: rest) = some (r, w')) :
    r ≠ 1 ∨ w.events.length < w'.events.length := by
  rw [shell_execute_cons] at h
  split_ifs at h
  · right
    simp only [Option.some.injEq] at h
    have := congrArg Prod.snd h
    simp only at this
    subst this
    unfold shell_cd
    split
    · simp [emit]
    · split <;> simp [emit]
  · left
    simp only [shell_exit, Option.some.injEq, Prod.mk.injEq] at h
    rw [← h.1]; decide
  · right
    simp only [shell_help, Option.some.injEq, Prod.mk.injEq] at h
    rw [← h.2]; simp [emit]
  · right
    unfold start_process at h
    simp only at h
    split_ifs at h
    · simp only [Option.some.injEq, Prod.mk.injEq] at h
      rw [← h.2]; simp [emit]
    · simp only [Option.some.injEq, Prod.mk.injEq] at h
      rw [← h.2]; simp [emit]
    · split at h
      · exact absurd h (by simp)
      · rename_i w2 hw
        simp only [Option.some.injEq, Prod.mk.injEq] at h
        rw [← h.2]
        have := wait_loop_events _ _ _ hw
        simp only [emit, List.length_append, List.length_singleton] at this
        omega

/-- On a zero-filled block, a line of fewer than 1024 spaces (none included)
followed by a line break makes one iteration of `shell_loop` a no-op: the
prompt is printed, the line is consumed, the status stays `1`, and nothing else
happens (by `dispatch_is_observable`, no handler and no process launch). -/
theorem shell_loop_step_blank_line_zero_block (env : Env) (w : World) (k : Nat)
    (rest : List Nat) (hheap : env.heap = []) (hin : w.stdin = List.replicate k 32 ++ 10 :: rest)
    (hk : k < 1024) :
    shell_loop_step env w = some (1, ⟨w.cwd, w.events ++ [Event.stdout "minsh> "], rest⟩) := by
  have hr := read_command_line_plain_line (List.replicate k 32) rest
    (by intro b hb; rw [List.eq_of_mem_replicate hb]; omega) (by simpa using hk)
  have hs : split_command_line (List.replicate k 32) = ⟨[], [0]⟩ := by
    rw [split_command_line_eq, runs_spaces]; rfl
  have hm : List.map Int.ofNat (List.replicate k 32) = List.replicate k (32 : CChar) := by
    simp
  unfold shell_loop_step
  simp only [emit, hheap, hin, hr.1, hr.2, hm, str_empty, strcmp, hs]
  split_ifs <;> rfl

/-- C3 (the code breaks it, by the defect of C6): because the reader stores no
terminator, a line of three spaces read into a block whose first bytes are
`xxxx` is seen as three spaces and `x`: the tokenizer yields the token `x` and a
process is launched; and an empty line read into a block that holds `exit` is
seen as `exit` and stops the loop. -/
theorem shell_loop_step_blank_line_dirty_block :
    shell_loop_step ⟨str "xxxx", fun _ _ => none, 7, [WaitStatus.exited]⟩
        ⟨str "/", [], bytes "   \n"⟩ =
      some (1, ⟨str "/", [Event.stdout "minsh> ", Event.fork 7,
        Event.stdout "\nParent Process!", Event.waitpid WaitStatus.exited], []⟩) ∧
    shell_loop_step ⟨str "exit", fun _ _ => none, 7, []⟩ ⟨str "/", [], bytes "\n"⟩ =
      some (0, ⟨str "/", [Event.stdout "minsh> "], []⟩) := by
  decide

/-- C5: for an argument vector whose first string is `cd` and which has no
second string, `shell_cd` (which `shell_execute` calls) returns `1`, leaves the
working directory unchanged, calls `chdir` not at all, and writes exactly one
line, `minsh: one argument required`, to the error stream. -/
theorem shell_cd_without_argument (env : Env) (w : World) (args : List (List CChar))
    (h0 : args.head? = some (str "cd")) (h1 : args[1]? = none) :
    shell_cd env w args = (1, emit w (Event.stderr "minsh: one argument required\n")) ∧
    shell_execute env w args = some (shell_cd env w args) ∧
    (shell_cd env w args).1 = 1 ∧
    (shell_cd env w args).2.cwd = w.cwd ∧
    chdir_calls (shell_cd env w args).2 = chdir_calls w ∧
    stderr_lines (shell_cd env w args).2 =
      stderr_lines w ++ [Event.stderr "minsh: one argument required\n"] ∧
    (str "minsh: one argument required\n").count 10 = 1 := by
  have e : shell_cd env w args = (1, emit w (Event.stderr "minsh: one argument required\n")) := by
    unfold shell_cd
    rw [h1]
  have e2 : shell_execute env w args = some (shell_cd env w args) := by
    cases args with
    | nil => simp at h0
    | cons arg0 rest =>
      simp only [List.head?_cons, Option.some.injEq] at h0
      rw [shell_execute_cons, if_pos h0]
  refine ⟨e, e2, ?_, ?_, ?_, ?_, by decide⟩
  · rw [e]
  · rw [e]; rfl
  · rw [e]; simp [chdir_calls, emit]
  · rw [e]; simp [stderr_lines, emit, Event.onStderr]

theorem shell_cd_without_argument_witness :
    shell_cd ⟨[], fun _ p => some p, 7, []⟩ ⟨str "/home", [], []⟩ [str "cd"] =
      (1, ⟨str "/home", [Event.stderr "minsh: one argument required\n"], []⟩) :=
  (shell_cd_without_argument ⟨[], fun _ p => some p, 7, []⟩ ⟨str "/home", [], []⟩ [str "cd"]
    (by decide) (by decide)).1

/-- C8 (the code breaks it): in the process in which `fork()` returned `0`,
`start_process` prints a trace line and returns the signal `1` to its caller;
for a command name that is not a builtin, `shell_execute` hands that `1` on, so
the child goes on with the loop of the parent. -/
theorem start_process_child_returns_continue (env : Env) (w : World)
    (arg0 : List CChar) (rest : List (List CChar)) :
    start_process { env with fork := 0 } w (arg0 :: rest) =
      some (1, emit (emit w (Event.fork 0)) (Event.stdout "\nChild Process")) ∧
    shell_execute { env with fork := 0 } w (str "ls" :: rest) =
      some (1, emit (emit w (Event.fork 0)) (Event.stdout "\nChild Process")) := by
  refine ⟨by simp [start_process], ?_⟩
  rw [shell_execute_cons]
  have h1 : str "ls" ≠ str "cd" := by decide
  have h2 : str "ls" ≠ str "exit" := by decide
  have h3 : str "ls" ≠ str "help" := by decide
  simp [h1, h2, h3, start_process]

theorem shell_loop_step_end_of_stream (env : Env) (cwd : List CChar) (events : List Event) :
    shell_loop_step { env with heap := [] } ⟨cwd, events, []⟩ =
      some (1, ⟨cwd, events ++ [Event.stdout "minsh> "], []⟩) := by
  simp [shell_loop_step, read_command_line, read_loop, ReadResult.line, cstr, strcmp,
    str_empty, emit]

/-- C7 (the code breaks it): at end of stream, with fresh blocks that are
zero-filled, `read_command_line` returns the empty line, and the loop is still
in the RUNNING state (status `1`) after any number of iterations; all it does
is print one prompt per iteration. -/
theorem shell_loop_end_of_stream_never_stops (envs : List Env) (cwd : List CChar)
    (events : List Event) :
    cstr (read_command_line [] []).command = str "" ∧
    shell_loop (envs.map (fun env => { env with heap := [] })) ⟨cwd, events, []⟩ =
      some (1, ⟨cwd, events ++ List.replicate envs.length (Event.stdout "minsh> "), []⟩) := by
  refine ⟨by decide, ?_⟩
  unfold shell_loop
  induction envs generalizing events with
  | nil => simp [shell_loop_while]
  | cons env envs ih =>
    simp only [List.map_cons, shell_loop_while, if_true, shell_loop_step_end_of_stream]
    rw [ih]
    simp [List.replicate_succ]

end MiniShell
